import Mathlib

/-!
Shallow embedding of the takya_notifier core (src/models.rs, src/parsers.rs,
src/main.rs).  Strings are modelled as Lean `String`/`List Char`; the Rust
`i32` values are modelled as `Int` with the explicit bound 2^31 - 1 where the
source can overflow; regular-expression searches of the four patterns in
parsers.rs are modelled by specialised leftmost-first scanners with greedy
(longest-first, backtracking) character-class groups, restricted to ASCII
digits for `\d`; fallible code returns `Except`, and the reachable
`Option::unwrap` panic in `parse_item_section` is modelled by the dedicated
`ParseResult.panic` constructor.
-/

namespace Takya

/-- models.rs `Exterior`: the five variants.  `strum(serialize = ...)`
gives each variant the quoted long name as its only `FromStr` form. -/
inductive Exterior where
  | FN
  | MW
  | FT
  | WW
  | BS
deriving DecidableEq

/-- models.rs `Exterior: FromStr` (derived by strum `EnumString`): only the
`serialize` strings are accepted; anything else is `VariantNotFound`,
modelled as `none`. -/
def exteriorFromStr (s : String) : Option Exterior :=
  if s = "Factory New" then some Exterior.FN
  else if s = "Minimal Wear" then some Exterior.MW
  else if s = "Field-Tested" then some Exterior.FT
  else if s = "Well-Worn" then some Exterior.WW
  else if s = "Battle-Scarred" then some Exterior.BS
  else none

/-- models.rs `Item` (the persisted listing record). -/
structure Item where
  order_id : Int
  name : String
  kind : Option String
  exterior : Option Exterior
  price : Int
  has_sold : Bool
  is_stattrak : Bool
deriving DecidableEq

/-- parsers.rs `ItemSection`: one parsed block; `item` is `none` for a
sold-marker block. -/
structure ItemSection where
  item : Option Item
  order_id : Int
  price : Int
deriving DecidableEq

/-- parsers.rs `ParseError`.  `invalidNumber` stands for the wrapped
`std::num::ParseIntError` (empty digit string or i32 overflow). -/
inductive ParseError where
  | invalidItemFormat (line : String)
  | invalidNumber
  | invalidExterior (code : String)
deriving DecidableEq

/-- Outcome of `parse_item_section`: `ok`/`err` mirror `Result`, and
`panic` models the reachable `Option::unwrap` panic on the price line. -/
inductive ParseResult (α : Type) where
  | ok (val : α)
  | err (e : ParseError)
  | panic
deriving DecidableEq

/-- Strip a literal from the front: `tryLit lit s = some rest` iff
`s = lit ++ rest`. -/
def tryLit : List Char → List Char → Option (List Char)
  | [], s => some s
  | _ :: _, [] => none
  | l :: ls, c :: cs => if l = c then tryLit ls cs else none

/-- Character class `[A-Za-z ]` of the vanilla/item matchers. -/
def cls1 (c : Char) : Bool := c.isAlpha || c = ' '

/-- Character class `[-A-Za-z ]` of the exterior group. -/
def cls2 (c : Char) : Bool := c = '-' || c.isAlpha || c = ' '

/-- Character class `[0-9,]` of the price group. -/
def clsPrice (c : Char) : Bool := c.isDigit || c = ','

/-- Fuel-driven worker for `splitSep`; each step consumes at least one
character, so fuel `s.length` suffices. -/
def splitSepF (sep : List Char) : Nat → List Char → List (List Char)
  | 0, s => [s]
  | fuel + 1, s =>
    match tryLit sep s with
    | some rest => [] :: splitSepF sep fuel rest
    | none =>
      match s with
      | [] => [[]]
      | c :: cs =>
        match splitSepF sep fuel cs with
        | [] => [[c]]
        | h :: t => (c :: h) :: t

/-- Rust `str::split` with a non-empty literal pattern: non-overlapping,
left-to-right, possibly empty chunks, never zero chunks. -/
def splitSep (sep s : List Char) : List (List Char) :=
  splitSepF sep s.length s

/-- `SOLD_MATCHER` = `\(売約済み\) #(\d+)`: leftmost occurrence of the
literal followed by at least one digit; returns capture group 1. -/
def soldCaps : List Char → Option (List Char)
  | [] => none
  | c :: cs =>
    match tryLit "(売約済み) #".data (c :: cs) with
    | some rest =>
      let ds := rest.takeWhile Char.isDigit
      if ds.isEmpty then soldCaps cs else some ds
    | none => soldCaps cs

/-- Backtracking over group 1 of `VANILLA_MATCHER`, longest candidate
first; `g1rev` is the reversed remaining candidate. -/
def vanShrink : List Char → List Char → Option (List Char × List Char)
  | [], _ => none
  | c0 :: g1rev, rest =>
    match tryLit " (Vanilla) #".data rest with
    | some r2 =>
      let ds := r2.takeWhile Char.isDigit
      if ds.isEmpty then vanShrink g1rev (c0 :: rest)
      else some ((c0 :: g1rev).reverse, ds)
    | none => vanShrink g1rev (c0 :: rest)

/-- `VANILLA_MATCHER` = `([A-Za-z ]+) \(Vanilla\) #(\d+)`: leftmost-first
search returning (group 1, group 2). -/
def vanillaCaps : List Char → Option (List Char × List Char)
  | [] => none
  | c :: cs =>
    if cls1 c then
      match vanShrink ((c :: cs).takeWhile cls1).reverse ((c :: cs).dropWhile cls1) with
      | some r => some r
      | none => vanillaCaps cs
    else vanillaCaps cs

/-- Try the tail ` \((group2)\) #(\d+)` of `ITEM_MATCHER` at a fixed
position; group 2 is the maximal `[-A-Za-z ]` run (`)` is outside the
class, so no shorter run can succeed). -/
def itemTryAt (rest : List Char) : Option (List Char × List Char) :=
  match tryLit " (".data rest with
  | some r2 =>
    let g2 := r2.takeWhile cls2
    if g2.isEmpty then none
    else
      match tryLit ") #".data (r2.dropWhile cls2) with
      | some r4 =>
        let ds := r4.takeWhile Char.isDigit
        if ds.isEmpty then none else some (g2, ds)
      | none => none
  | none => none

/-- Backtracking over group 1 of `ITEM_MATCHER`, longest first. -/
def itemShrink : List Char → List Char → Option (List Char × List Char × List Char)
  | [], _ => none
  | c0 :: g1rev, rest =>
    match itemTryAt rest with
    | some r => some ((c0 :: g1rev).reverse, r.1, r.2)
    | none => itemShrink g1rev (c0 :: rest)

/-- `ITEM_MATCHER` = `([A-Za-z ]+) \(([-A-Za-z ]+)\) #(\d+)`:
leftmost-first search returning (group 1, group 2, group 3). -/
def itemCaps : List Char → Option (List Char × List Char × List Char)
  | [] => none
  | c :: cs =>
    if cls1 c then
      match itemShrink ((c :: cs).takeWhile cls1).reverse ((c :: cs).dropWhile cls1) with
      | some r => some r
      | none => itemCaps cs
    else itemCaps cs

/-- `PRICE_MATCHER` = `販売価格: ([0-9,]+)円 *`: leftmost occurrence of the
label, then the maximal `[0-9,]` run, which must be non-empty and followed
by `円` (the trailing ` *` always matches). -/
def priceCaps : List Char → Option (List Char)
  | [] => none
  | c :: cs =>
    match tryLit "販売価格: ".data (c :: cs) with
    | some rest =>
      let g := rest.takeWhile clsPrice
      if g.isEmpty then priceCaps cs
      else if (rest.dropWhile clsPrice).head? = some '円' then some g
      else priceCaps cs
    | none => priceCaps cs

/-- Value of an ASCII digit string. -/
def natOfDigits (cs : List Char) : Nat :=
  cs.foldl (fun n c => 10 * n + (c.toNat - 48)) 0

/-- `i32::MAX`. -/
def I32MAX : Nat := 2147483647

/-- `str::parse::<i32>` on the sign-less digit captures of parsers.rs: an
empty string or a value above `i32::MAX` is a `ParseIntError`
(`ParseError::InvalidNumber` via `#[from]`). -/
def parseI32 (cs : List Char) : Except ParseError Int :=
  if cs.isEmpty then Except.error ParseError.invalidNumber
  else if cs.all Char.isDigit then
    if natOfDigits cs ≤ I32MAX then Except.ok (Int.ofNat (natOfDigits cs))
    else Except.error ParseError.invalidNumber
  else Except.error ParseError.invalidNumber

/-- Rust `str::trim` (whitespace at both ends). -/
def trimChars (cs : List Char) : List Char :=
  ((cs.dropWhile Char.isWhitespace).reverse.dropWhile Char.isWhitespace).reverse

/-- parsers.rs `STATTRAK` prefix constant. -/
def STATTRAK : List Char := "StatTrak ".data

/-- The `starts_with` / `drain` step on the trimmed name. -/
def stripStat (cs : List Char) : List Char × Bool :=
  match tryLit STATTRAK cs with
  | some rest => (rest, true)
  | none => (cs, false)

/-- The price block of `parse_item_section`:
`PRICE_MATCHER.captures(price_line).unwrap()` (panic when no match), then
commas stripped and the rest parsed as `i32`. -/
def parsePrice (price_line : List Char) : ParseResult Int :=
  match priceCaps price_line with
  | none => ParseResult.panic
  | some g =>
    match parseI32 (g.filter (fun c => !(c = ','))) with
    | Except.ok n => ParseResult.ok n
    | Except.error e => ParseResult.err e

/-- The trim-then-StatTrak step of `parse_item_section` on the optional
name: `(name after stripping, is_stattrak)`. -/
def nameAfter (name0 : Option (List Char)) : Option (List Char) × Bool :=
  match name0.map trimChars with
  | some n => (some (stripStat n).1, (stripStat n).2)
  | none => (none, false)

/-- Tail of `parse_item_section` after the name-line match: trim name and
kind, strip the StatTrak prefix, parse the price line, and build the
`ItemSection` (item present exactly when a name was extracted). -/
def mkSection (name0 kind0 : Option (List Char)) (ext : Option Exterior)
    (oid : Int) (price_line : String) : ParseResult ItemSection :=
  match parsePrice price_line.data with
  | ParseResult.panic => ParseResult.panic
  | ParseResult.err e => ParseResult.err e
  | ParseResult.ok price =>
    match (nameAfter name0).1 with
    | some n =>
      ParseResult.ok
        { item := some { order_id := oid, name := String.mk n,
                         kind := (kind0.map trimChars).map String.mk,
                         exterior := ext, price := price, has_sold := false,
                         is_stattrak := (nameAfter name0).2 },
          order_id := oid, price := price }
    | none => ParseResult.ok { item := none, order_id := oid, price := price }

/-- parsers.rs `parse_item_section` (the Field Extractor).  The name line is
split on the literal `" | "`; one segment is tried as sold marker then as
vanilla item, two segments as a full item (exterior resolved through
`Exterior::from_str`, unknown codes giving `InvalidExterior` before the
order-id parse), any other count is `InvalidItemFormat`. -/
def parse_item_section (item_name_line price_line : String) : ParseResult ItemSection :=
  match splitSep " | ".data item_name_line.data with
  | [s] =>
    match soldCaps s with
    | some ds =>
      match parseI32 ds with
      | Except.error e => ParseResult.err e
      | Except.ok oid => mkSection none none none oid price_line
    | none =>
      match vanillaCaps s with
      | none => ParseResult.err (ParseError.invalidItemFormat item_name_line)
      | some r =>
        match parseI32 r.2 with
        | Except.error e => ParseResult.err e
        | Except.ok oid => mkSection (some r.1) none none oid price_line
  | [s0, s1] =>
    match itemCaps s1 with
    | none => ParseResult.err (ParseError.invalidItemFormat item_name_line)
    | some r =>
      match exteriorFromStr (String.mk r.2.1) with
      | none => ParseResult.err (ParseError.invalidExterior (String.mk r.2.1))
      | some x =>
        match parseI32 r.2.2 with
        | Except.error e => ParseResult.err e
        | Except.ok oid => mkSection (some s0) (some r.1) (some x) oid price_line
  | _ => ParseResult.err (ParseError.invalidItemFormat item_name_line)

/-- parsers.rs `parse_items` (the Section Parser) over the flat line
sequence.  A line trimming to `★` opens a block; the next three lines are
name, discarded blank, and price; a missing line logs a warning and control
returns to seeking (with the stream exhausted, the loop then ends with the
sections accumulated so far); a `ParseError` from the Field Extractor logs a
warning and seeking resumes.  `none` models the run aborting because
`parse_item_section` panicked. -/
def parse_items : List String → Option (List ItemSection)
  | [] => some []
  | t :: rest =>
    if trimChars t.data = "★".data then
      match rest with
      | nameLine :: _blank :: priceLine :: rest4 =>
        match parse_item_section nameLine priceLine with
        | ParseResult.ok sec => (parse_items rest4).map (fun l => sec :: l)
        | ParseResult.err _ => parse_items rest4
        | ParseResult.panic => none
      | _ => some []
    else parse_items rest

/-! ## Reconciler (src/main.rs lines 85–158)

The persisted table is modelled as a list of `Item` rows (`order_id` is the
primary key, so a well-formed store has pairwise-distinct keys); the diesel
operations become list lookups, maps, appends and filters; the FCM
notifications become `Event` values carrying exactly the data interpolated
into the notification text. -/

abbrev Store := List Item

/-- The notification events built in main.rs, with the fields each format
string interpolates. -/
inductive Event where
  | priceChanged (oldPrice newPrice : Int) (listing : Item)
  | sold (listing : Item)
  | newListing (listing : Item)
  | removed (listing : Item)
deriving DecidableEq

/-- main.rs `Error::ItemNotFound`, the fatal consistency error of the
deletion phase (the other `Error` variants belong to the out-of-scope fetch
stage). -/
inductive RecError where
  | itemNotFound
deriving DecidableEq

/-- `table.filter(order_id.eq(k)).first(...).optional()`: first row whose
key is `k`. -/
def findItem : Store → Int → Option Item
  | [], _ => none
  | it :: st, k => if it.order_id = k then some it else findItem st k

/-- A diesel `UPDATE ... WHERE order_id = k`: rewrite every row keyed `k`. -/
def updateRow : Store → Int → (Item → Item) → Store
  | [], _, _ => []
  | it :: st, k, f => (if it.order_id = k then f it else it) :: updateRow st k f

/-- `DELETE FROM item WHERE order_id = k`. -/
def deleteRow : Store → Int → Store
  | [], _ => []
  | it :: st, k => if it.order_id = k then deleteRow st k else it :: deleteRow st k

/-- `Vec::<i32>::contains`. -/
def memInt (k : Int) : List Int → Bool
  | [] => false
  | x :: xs => if x = k then true else memInt k xs

/-- The key column of the store. -/
def keys (st : Store) : List Int := st.map (fun it => it.order_id)

/-- Well-formedness of the persisted store: `order_id` is a primary key. -/
def keysNodup (st : Store) : Prop := (keys st).Nodup

/-- One iteration of the main reconciliation loop (main.rs 90–131) on one
`ItemSection`: returns the store after this iteration, the notifications it
pushed, and the items it staged into `new_items`. -/
def step1 (st : Store) (s : ItemSection) : Store × List Event × List Item :=
  match findItem st s.order_id with
  | some db =>
    match s.item with
    | some fi =>
      (updateRow st fi.order_id (fun _ => fi),
       if fi.price = db.price then []
       else [Event.priceChanged db.price fi.price fi],
       [])
    | none =>
      if db.has_sold then (st, [], [])
      else (updateRow st db.order_id
              (fun x => { x with has_sold := true, price := s.price }),
            [Event.sold db], [])
  | none =>
    match s.item with
    | some fi => (st, [Event.newListing fi], [fi])
    | none => (st, [], [])

/-- The whole reconciliation loop: threads the store through `step1` and
concatenates notifications and staged items in scan order. -/
def phase1 : Store → List ItemSection → Store × List Event × List Item
  | st, [] => (st, [], [])
  | st, s :: rest =>
    ((phase1 (step1 st s).1 rest).1,
     (step1 st s).2.1 ++ (phase1 (step1 st s).1 rest).2.1,
     (step1 st s).2.2 ++ (phase1 (step1 st s).1 rest).2.2)

/-- The deletion loop (main.rs 144–157): for each stale key, look the row
up, delete it, and either push a removal notification or abort with the
fatal `ItemNotFound` consistency error when the lookup found nothing. -/
def deletePhase : Store → List Int → Except RecError (Store × List Event)
  | st, [] => Except.ok (st, [])
  | st, k :: rest =>
    match findItem st k with
    | some it =>
      match deletePhase (deleteRow st k) rest with
      | Except.ok r => Except.ok (r.1, Event.removed it :: r.2)
      | Except.error e => Except.error e
    | none => Except.error RecError.itemNotFound

/-- `order_id`s of a scan, in scan order (main.rs `order_ids`). -/
def scanIds (scan : List ItemSection) : List Int :=
  scan.map (fun s => s.order_id)

/-- The Reconciler (main.rs 85–158): the per-section loop, the batched
insert of `new_items` (guarded by non-emptiness in the source, a no-op
guard for the append), the stale-key computation
`deleted_items.retain(!order_ids.contains)`, and the deletion loop.
Returns the final store and the notification events in emission order. -/
def reconcile (store0 : Store) (scan : List ItemSection) :
    Except RecError (Store × List Event) :=
  let p := phase1 store0 scan
  let st2 := if p.2.2 = [] then p.1 else p.1 ++ p.2.2
  let del := (keys st2).filter (fun k => !(memInt k (scanIds scan)))
  match deletePhase st2 del with
  | Except.ok r => Except.ok (r.1, p.2.1 ++ r.2)
  | Except.error e => Except.error e

instance {ε α : Type} [DecidableEq ε] [DecidableEq α] : DecidableEq (Except ε α) := fun x y =>
  match x, y with
  | Except.ok a, Except.ok b =>
    if h : a = b then isTrue (congrArg Except.ok h)
    else isFalse (fun hh => h (Except.ok.inj hh))
  | Except.ok _, Except.error _ => isFalse (fun hh => Except.noConfusion hh)
  | Except.error _, Except.ok _ => isFalse (fun hh => Except.noConfusion hh)
  | Except.error a, Except.error b =>
    if h : a = b then isTrue (congrArg Except.error h)
    else isFalse (fun hh => h (Except.error.inj hh))

/-- Internal consistency of one section, as a decidable Boolean: when a
listing is present its key is the section's key. -/
def consistentSecB (s : ItemSection) : Bool :=
  match s.item with
  | some fi => fi.order_id == s.order_id
  | none => true

/-- Every section of the scan is internally consistent. -/
def consistentScan (scan : List ItemSection) : Prop :=
  ∀ s ∈ scan, consistentSecB s = true

/-- The data-model invariant of models.rs: `exterior.is_some() == kind.is_some()`. -/
def itemInv (it : Item) : Prop := it.exterior.isSome = it.kind.isSome

/-- Boolean form of `itemInv` for sections. -/
def secInvB (s : ItemSection) : Bool :=
  match s.item with
  | some fi => fi.exterior.isSome == fi.kind.isSome
  | none => true

/-- Every listing carried by the scan satisfies the data-model invariant. -/
def scanInv (scan : List ItemSection) : Prop :=
  ∀ s ∈ scan, secInvB s = true

instance (st : Store) : Decidable (keysNodup st) :=
  List.nodupDecidable (keys st)

instance (scan : List ItemSection) : Decidable (consistentScan scan) :=
  List.decidableBAll _ scan

instance (scan : List ItemSection) : Decidable (scanInv scan) :=
  List.decidableBAll _ scan

instance (it : Item) : Decidable (itemInv it) :=
  instDecidableEqBool _ _

/-- Recognizer for a price-changed event about key `k`. -/
def isPriceChangedFor (k : Int) : Event → Bool
  | Event.priceChanged _ _ it => it.order_id == k
  | _ => false

/-- Recognizer for a removal event about key `k`. -/
def isRemovedFor (k : Int) : Event → Bool
  | Event.removed it => it.order_id == k
  | _ => false

/-- The record a scan key resolves to right after the per-section loop
(before inserts): the single iteration for an `order_id` rewrites exactly
that key. -/
def postFind (st : Store) (s : ItemSection) : Option Item :=
  match findItem st s.order_id, s.item with
  | some _, some fi => some fi
  | some db, none =>
    some (if db.has_sold then db
          else { db with has_sold := true, price := s.price })
  | none, _ => none

/-- The record a scan key resolves to in the final store (after the batched
insert; deletion never touches scan keys). -/
def finalFind (st : Store) (s : ItemSection) : Option Item :=
  match findItem st s.order_id, s.item with
  | some _, some fi => some fi
  | some db, none =>
    some (if db.has_sold then db
          else { db with has_sold := true, price := s.price })
  | none, some fi => some fi
  | none, none => none

/-- The notifications one section contributes, determined by the store the
loop started from (correct when scan keys are pairwise distinct). -/
def eventsFor (st : Store) (s : ItemSection) : List Event :=
  match findItem st s.order_id, s.item with
  | some db, some fi =>
    if fi.price = db.price then [] else [Event.priceChanged db.price fi.price fi]
  | some db, none => if db.has_sold then [] else [Event.sold db]
  | none, some fi => [Event.newListing fi]
  | none, none => []

/-- The items one section stages for insertion. -/
def newsFor (st : Store) (s : ItemSection) : List Item :=
  match findItem st s.order_id, s.item with
  | none, some fi => [fi]
  | _, _ => []

/-- Loop-order concatenation of `eventsFor`. -/
def eventsOf (st : Store) : List ItemSection → List Event
  | [] => []
  | s :: rest => eventsFor st s ++ eventsOf st rest

/-- Loop-order concatenation of `newsFor`. -/
def newsOf (st : Store) : List ItemSection → List Item
  | [] => []
  | s :: rest => newsFor st s ++ newsOf st rest

/-- A store already reflects a section: a present listing is stored as-is,
and a sold-marker key is either gone or stored as sold. -/
def settledSec (st : Store) (s : ItemSection) : Prop :=
  (∀ fi, s.item = some fi → findItem st s.order_id = some fi)
  ∧ (s.item = none →
      findItem st s.order_id = none
      ∨ ∃ db, findItem st s.order_id = some db ∧ db.has_sold = true)

/-! ## Claims about the Section Parser and Field Extractor -/

/-- C1: the claim that `parse_items` runs to completion on every input,
with every per-block failure logging a warning and returning to seeking, is
refuted by the code: a block whose price line does not contain the
`販売価格: <digits-and-commas>円` pattern reaches
`PRICE_MATCHER.captures(price_line).unwrap()` and panics, aborting the whole
parse (first conjunct).  The failure paths the claim lists are indeed
recovered: a stream ending after the marker, and a name line matching no
shape, both yield the accumulated (empty) result (remaining conjuncts). -/
theorem C1_price_panic_aborts_parse_items :
    parse_items ["★", "(売約済み) #1", "", "x"] = none
    ∧ parse_items ["★"] = some []
    ∧ parse_items ["★", "junk", "", "販売価格: 5円"] = some [] := by decide

/-- C2: on a name line resolving to one of the three shapes, a price line
that does not match the price pattern makes `parse_item_section` panic
(`Option::unwrap` on `None`) instead of returning the classified parse
error the claim describes (first conjunct).  The numeric half of the claim
does hold: a matched digit string that is empty after comma-stripping, or
overflows `i32`, is the numeric parse error `InvalidNumber` (remaining
conjuncts). -/
theorem C2_price_line_outcomes :
    parse_item_section "(売約済み) #1" "x" = ParseResult.panic
    ∧ parse_item_section "(売約済み) #2" "販売価格: ,円" =
        ParseResult.err ParseError.invalidNumber
    ∧ parse_item_section "(売約済み) #3" "販売価格: 9999999999円" =
        ParseResult.err ParseError.invalidNumber := by decide

/-- C3 counterexample: the claim says the captured exterior must be one of
the five short codes `FN`, `MW`, `FT`, `WW`, `BS`.  On the code,
`Exterior::from_str` accepts only the strum `serialize` long names, so the
short code `FN`, although captured by the full-item pattern (first
conjunct), is rejected with `InvalidExterior` (second conjunct). -/
theorem C3_counterexample :
    itemCaps "Redline (FN) #1".data = some ("Redline".data, "FN".data, "1".data)
    ∧ parse_item_section "AK-47 | Redline (FN) #1" "販売価格: 100円" =
        ParseResult.err (ParseError.invalidExterior "FN") := by decide

/-- C3 (amended): for a full-item name line (exactly two segments, segment
1 matched by the item pattern), the accepted exterior codes are the five
serialized names `Factory New`, `Minimal Wear`, `Field-Tested`,
`Well-Worn`, `Battle-Scarred` (the values of `exteriorFromStr`): any
captured code outside this set fails with `InvalidExterior` carrying the
offending code, before the price line is even consulted, and a recognized
code continues past the exterior check into the order-id and price
parsing. -/
theorem C3_exterior_codes (nameLn priceLn : String) (s0 s1 knd ext ds : List Char)
    (hsplit : splitSep " | ".data nameLn.data = [s0, s1])
    (hcaps : itemCaps s1 = some (knd, ext, ds)) :
    (exteriorFromStr (String.mk ext) = none →
        parse_item_section nameLn priceLn =
          ParseResult.err (ParseError.invalidExterior (String.mk ext)))
    ∧ (∀ x, exteriorFromStr (String.mk ext) = some x →
        parse_item_section nameLn priceLn =
          (match parseI32 ds with
           | Except.error e => ParseResult.err e
           | Except.ok oid => mkSection (some s0) (some knd) (some x) oid priceLn)) := by
  constructor
  · intro hn
    simp only [parse_item_section, hsplit, hcaps, hn]
  · intro x hx
    simp only [parse_item_section, hsplit, hcaps, hx]

/-- Witness for C3: the unrecognized code `XY` is captured and rejected
with `InvalidExterior "XY"` regardless of the price line. -/
theorem C3_witness :
    parse_item_section "AB | Good (XY) #9" "p" =
      ParseResult.err (ParseError.invalidExterior "XY") :=
  (C3_exterior_codes "AB | Good (XY) #9" "p" "AB".data "Good (XY) #9".data
    "Good".data "XY".data "9".data (by decide) (by decide)).1 (by decide)

/-- C7: the concrete scenario of the spec: name line
`AK-47 | Redline (Field-Tested) #123` with price line `販売価格: 15,000円`
parses to the stated listing. -/
theorem C7_concrete_scenario :
    parse_item_section "AK-47 | Redline (Field-Tested) #123" "販売価格: 15,000円" =
      ParseResult.ok ⟨some ⟨123, "AK-47", some "Redline", some Exterior.FT,
        15000, false, false⟩, 123, 15000⟩ := by decide

/-- C8: a name line splitting on `" | "` into zero segments (impossible
for Rust `split`, but falling into the same wildcard match arm) or three or
more segments makes `parse_item_section` fail with `InvalidItemFormat`
carrying the original line. -/
theorem C8_segment_count (nameLn priceLn : String)
    (h : (splitSep " | ".data nameLn.data).length = 0
      ∨ 3 ≤ (splitSep " | ".data nameLn.data).length) :
    parse_item_section nameLn priceLn =
      ParseResult.err (ParseError.invalidItemFormat nameLn) := by
  rcases hv : splitSep " | ".data nameLn.data with _ | ⟨a, _ | ⟨b, rest⟩⟩
  · simp only [parse_item_section, hv]
  · rw [hv] at h
    simp at h
  · cases rest with
    | nil =>
      rw [hv] at h
      simp at h
    | cons c t =>
      simp only [parse_item_section, hv]

/-- Witness for C8: a three-segment name line is rejected with
`InvalidItemFormat`. -/
theorem C8_witness :
    parse_item_section "a | b | c" "p" =
      ParseResult.err (ParseError.invalidItemFormat "a | b | c") :=
  C8_segment_count "a | b | c" "p" (Or.inr (by decide))

/-- Helper for C10: every `ok` result built by `mkSection` carries the
section's `order_id` and `price` into the item, with `has_sold = false`. -/
theorem mkSection_fields (n0 k0 : Option (List Char)) (ext : Option Exterior)
    (oid : Int) (pl : String) (sec : ItemSection) (it : Item)
    (h : mkSection n0 k0 ext oid pl = ParseResult.ok sec)
    (hi : sec.item = some it) :
    it.order_id = sec.order_id ∧ it.price = sec.price ∧ it.has_sold = false := by
  unfold mkSection at h
  split at h
  · exact ParseResult.noConfusion h
  · exact ParseResult.noConfusion h
  · split at h
    · cases ParseResult.ok.inj h
      cases Option.some.inj hi
      exact ⟨rfl, rfl, rfl⟩
    · cases ParseResult.ok.inj h
      exact Option.noConfusion hi

/-- C10: whenever `parse_item_section` succeeds and the returned section
carries an item, the item's `order_id` and `price` equal the section's and
`has_sold` is `false` — parsing never marks a listing sold. -/
theorem C10_section_consistency (n p : String) (sec : ItemSection) (it : Item)
    (h : parse_item_section n p = ParseResult.ok sec)
    (hi : sec.item = some it) :
    it.order_id = sec.order_id ∧ it.price = sec.price ∧ it.has_sold = false := by
  unfold parse_item_section at h
  split at h
  · split at h
    · split at h
      · exact ParseResult.noConfusion h
      · exact mkSection_fields _ _ _ _ _ _ _ h hi
    · split at h
      · exact ParseResult.noConfusion h
      · split at h
        · exact ParseResult.noConfusion h
        · exact mkSection_fields _ _ _ _ _ _ _ h hi
  · split at h
    · exact ParseResult.noConfusion h
    · split at h
      · exact ParseResult.noConfusion h
      · split at h
        · exact ParseResult.noConfusion h
        · exact mkSection_fields _ _ _ _ _ _ _ h hi
  · exact ParseResult.noConfusion h

/-- Witness for C10: a concrete StatTrak full item. -/
theorem C10_witness :
    (682 : Int) = (682 : Int) ∧ (30 : Int) = (30 : Int) ∧ false = false :=
  C10_section_consistency "StatTrak AWP | Asiimov (Factory New) #682" "販売価格: 30円"
    ⟨some ⟨682, "AWP", some "Asiimov", some Exterior.FN, 30, false, true⟩, 682, 30⟩
    ⟨682, "AWP", some "Asiimov", some Exterior.FN, 30, false, true⟩
    (by decide) (by decide)

/-! ## Store lemmas -/

theorem memInt_iff (k : Int) (l : List Int) : memInt k l = true ↔ k ∈ l := by
  induction l with
  | nil => simp [memInt]
  | cons x xs ih =>
    rw [memInt]
    by_cases hx : x = k
    · subst hx
      simp
    · rw [if_neg hx, ih]
      constructor
      · exact fun h => List.mem_cons_of_mem x h
      · intro h
        rcases List.mem_cons.mp h with h1 | h1
        · exact absurd h1.symm hx
        · exact h1

theorem findItem_some_key {st : Store} {k : Int} {it : Item}
    (h : findItem st k = some it) : it.order_id = k := by
  induction st with
  | nil => exact Option.noConfusion h
  | cons a st ih =>
    by_cases ha : a.order_id = k
    · rw [findItem, if_pos ha] at h
      cases Option.some.inj h
      exact ha
    · rw [findItem, if_neg ha] at h
      exact ih h

theorem findItem_some_mem {st : Store} {k : Int} {it : Item}
    (h : findItem st k = some it) : it ∈ st := by
  induction st with
  | nil => exact Option.noConfusion h
  | cons a st ih =>
    by_cases ha : a.order_id = k
    · rw [findItem, if_pos ha] at h
      cases Option.some.inj h
      exact List.mem_cons_self _ _
    · rw [findItem, if_neg ha] at h
      exact List.mem_cons_of_mem a (ih h)

theorem findItem_eq_none_iff {st : Store} {k : Int} :
    findItem st k = none ↔ ¬ k ∈ keys st := by
  induction st with
  | nil => simp [findItem, keys]
  | cons a st ih =>
    by_cases ha : a.order_id = k
    · simp [findItem, if_pos ha, keys, ha]
    · simp [findItem, if_neg ha, keys] at ih ⊢
      exact ⟨fun h => ⟨fun hh => ha hh.symm, ih.mp h⟩, fun h => ih.mpr h.2⟩

theorem findItem_isSome_of_mem_keys {st : Store} {k : Int}
    (h : k ∈ keys st) : ∃ it, findItem st k = some it := by
  cases hf : findItem st k with
  | none => exact absurd h (findItem_eq_none_iff.mp hf)
  | some it => exact ⟨it, rfl⟩

theorem mem_keys_of_mem {st : Store} {it : Item} (h : it ∈ st) :
    it.order_id ∈ keys st :=
  List.mem_map.mpr ⟨it, h, rfl⟩

theorem keys_append (st st' : Store) : keys (st ++ st') = keys st ++ keys st' :=
  List.map_append _ st st'

theorem findItem_append (st st' : Store) (k : Int) :
    findItem (st ++ st') k =
      (match findItem st k with
       | some it => some it
       | none => findItem st' k) := by
  induction st with
  | nil => simp [findItem]
  | cons a st ih =>
    by_cases ha : a.order_id = k
    · simp [findItem, if_pos ha]
    · simp [findItem, if_neg ha, ih]

theorem updateRow_keys {st : Store} {k : Int} {f : Item → Item}
    (hf : ∀ it : Item, it.order_id = k → (f it).order_id = k) :
    keys (updateRow st k f) = keys st := by
  induction st with
  | nil => rfl
  | cons a st ih =>
    simp only [keys, updateRow, List.map_cons] at ih ⊢
    by_cases ha : a.order_id = k
    · rw [if_pos ha, ih, hf a ha, ha]
    · rw [if_neg ha, ih]

theorem findItem_updateRow_ne {st : Store} {k k' : Int} {f : Item → Item}
    (hf : ∀ it : Item, it.order_id = k → (f it).order_id = k)
    (hne : ¬ k' = k) :
    findItem (updateRow st k f) k' = findItem st k' := by
  induction st with
  | nil => rfl
  | cons a st ih =>
    by_cases ha : a.order_id = k
    · have h1 : ¬ (f a).order_id = k' := by
        rw [hf a ha]
        exact fun hh => hne hh.symm
      have h2 : ¬ a.order_id = k' := by
        rw [ha]
        exact fun hh => hne hh.symm
      simp [updateRow, if_pos ha, findItem, h1, h2, ih]
    · simp only [updateRow, if_neg ha]
      by_cases ha' : a.order_id = k'
      · simp [findItem, ha']
      · simp [findItem, ha', ih]

theorem findItem_updateRow_self {st : Store} {k : Int} {f : Item → Item}
    (hf : ∀ it : Item, it.order_id = k → (f it).order_id = k) :
    findItem (updateRow st k f) k = (findItem st k).map f := by
  induction st with
  | nil => rfl
  | cons a st ih =>
    by_cases ha : a.order_id = k
    · simp [updateRow, if_pos ha, findItem, hf a ha, ha]
    · simp [updateRow, if_neg ha, findItem, ha, ih]

theorem updateRow_not_mem {st : Store} {k : Int} {f : Item → Item}
    (h : ¬ k ∈ keys st) : updateRow st k f = st := by
  induction st with
  | nil => rfl
  | cons a st ih =>
    simp [keys] at h
    rw [updateRow, if_neg (fun hh => h.1 hh.symm)]
    rw [ih (by simp [keys]; exact h.2)]

theorem updateRow_const_self {st : Store} {k : Int} {fi : Item}
    (hnd : keysNodup st) (hfind : findItem st k = some fi) :
    updateRow st k (fun _ => fi) = st := by
  induction st with
  | nil => exact Option.noConfusion hfind
  | cons a st ih =>
    rw [keysNodup, keys, List.map_cons, List.nodup_cons] at hnd
    by_cases ha : a.order_id = k
    · rw [findItem, if_pos ha] at hfind
      cases Option.some.inj hfind
      rw [updateRow, if_pos ha]
      have hnm : ¬ k ∈ keys st := by
        rw [← ha]
        exact hnd.1
      rw [updateRow_not_mem hnm]
    · rw [findItem, if_neg ha] at hfind
      rw [updateRow, if_neg ha, ih hnd.2 hfind]

theorem mem_updateRow {st : Store} {k : Int} {f : Item → Item} {x : Item}
    (h : x ∈ updateRow st k f) :
    ∃ it ∈ st, x = (if it.order_id = k then f it else it) := by
  induction st with
  | nil => exact absurd h (List.not_mem_nil x)
  | cons a st ih =>
    rw [updateRow] at h
    rcases List.mem_cons.mp h with h1 | h1
    · exact ⟨a, List.mem_cons_self a st, h1⟩
    · rcases ih h1 with ⟨it, hmem, heq⟩
      exact ⟨it, List.mem_cons_of_mem a hmem, heq⟩

theorem deleteRow_sublist (st : Store) (k : Int) :
    List.Sublist (deleteRow st k) st := by
  induction st with
  | nil => exact List.Sublist.refl []
  | cons a st ih =>
    by_cases ha : a.order_id = k
    · rw [deleteRow, if_pos ha]
      exact List.Sublist.cons a ih
    · rw [deleteRow, if_neg ha]
      exact List.Sublist.cons₂ a ih

theorem findItem_deleteRow_ne {st : Store} {k k' : Int} (hne : ¬ k' = k) :
    findItem (deleteRow st k) k' = findItem st k' := by
  induction st with
  | nil => rfl
  | cons a st ih =>
    by_cases ha : a.order_id = k
    · have h2 : ¬ a.order_id = k' := by
        rw [ha]
        exact fun hh => hne hh.symm
      simp [deleteRow, if_pos ha, findItem, h2, ih]
    · simp only [deleteRow, if_neg ha]
      by_cases ha' : a.order_id = k'
      · simp [findItem, ha']
      · simp [findItem, ha', ih]

theorem findItem_deleteRow_self (st : Store) (k : Int) :
    findItem (deleteRow st k) k = none := by
  induction st with
  | nil => rfl
  | cons a st ih =>
    by_cases ha : a.order_id = k
    · simp [deleteRow, if_pos ha, ih]
    · simp [deleteRow, if_neg ha, findItem, ha, ih]

theorem keys_deleteRow_mem {st : Store} {k k' : Int} :
    k' ∈ keys (deleteRow st k) ↔ k' ∈ keys st ∧ ¬ k' = k := by
  induction st with
  | nil => simp [deleteRow, keys]
  | cons a st ih =>
    by_cases ha : a.order_id = k
    · rw [deleteRow, if_pos ha, ih]
      simp only [keys, List.map_cons, List.mem_cons]
      constructor
      · exact fun h => ⟨Or.inr h.1, h.2⟩
      · rintro ⟨h1 | h1, h2⟩
        · exact absurd (h1.trans ha) h2
        · exact ⟨h1, h2⟩
    · rw [deleteRow]
      rw [if_neg ha]
      simp only [keys, List.map_cons, List.mem_cons]
      rw [keys] at ih
      constructor
      · rintro (h1 | h1)
        · subst h1
          exact ⟨Or.inl rfl, ha⟩
        · exact ⟨Or.inr (ih.mp h1).1, (ih.mp h1).2⟩
      · rintro ⟨h1 | h1, h2⟩
        · exact Or.inl h1
        · exact Or.inr (ih.mpr ⟨h1, h2⟩)

/-! ## Per-section loop lemmas -/

theorem consistentSecB_some {s : ItemSection} {fi : Item}
    (h : consistentSecB s = true) (hi : s.item = some fi) :
    fi.order_id = s.order_id := by
  simp only [consistentSecB, hi] at h
  exact eq_of_beq h

theorem consistentScan_head {s : ItemSection} {rest : List ItemSection}
    (hc : consistentScan (s :: rest)) : consistentSecB s = true :=
  hc s (List.mem_cons_self _ _)

theorem consistentScan_rest {s : ItemSection} {rest : List ItemSection}
    (hc : consistentScan (s :: rest)) : consistentScan rest :=
  fun t ht => hc t (List.mem_cons_of_mem _ ht)

theorem step1_keys (st : Store) (s : ItemSection) (_hc : consistentSecB s = true) :
    keys (step1 st s).1 = keys st := by
  rcases hdb : findItem st s.order_id with _ | db
  · rcases hsi : s.item with _ | fi <;> simp [step1, hdb, hsi]
  · rcases hsi : s.item with _ | fi
    · simp only [step1, hdb, hsi]
      by_cases hsold : db.has_sold = true
      · simp [hsold]
      · simp only [hsold, if_false]
        exact updateRow_keys (fun it hit => hit)
    · simp only [step1, hdb, hsi]
      exact updateRow_keys (fun it _ => rfl)

theorem step1_find_ne (st : Store) (s : ItemSection) (k : Int)
    (hc : consistentSecB s = true) (hne : ¬ k = s.order_id) :
    findItem (step1 st s).1 k = findItem st k := by
  rcases hdb : findItem st s.order_id with _ | db
  · rcases hsi : s.item with _ | fi <;> simp [step1, hdb, hsi]
  · rcases hsi : s.item with _ | fi
    · simp only [step1, hdb, hsi]
      by_cases hsold : db.has_sold = true
      · simp [hsold]
      · simp only [hsold, if_false]
        have hk : db.order_id = s.order_id := findItem_some_key hdb
        exact findItem_updateRow_ne (fun it hit => hit) (by rw [hk]; exact hne)
    · simp only [step1, hdb, hsi]
      have hk : fi.order_id = s.order_id := consistentSecB_some hc hsi
      exact findItem_updateRow_ne (fun it _ => rfl) (by rw [hk]; exact hne)

theorem step1_find_self (st : Store) (s : ItemSection) (hc : consistentSecB s = true) :
    findItem (step1 st s).1 s.order_id = postFind st s := by
  rcases hdb : findItem st s.order_id with _ | db
  · rcases hsi : s.item with _ | fi <;> simp [step1, postFind, hdb, hsi]
  · rcases hsi : s.item with _ | fi
    · simp only [step1, postFind, hdb, hsi]
      by_cases hsold : db.has_sold = true
      · simp [hsold, hdb]
      · rw [if_neg hsold, if_neg hsold]
        have hk : db.order_id = s.order_id := findItem_some_key hdb
        have hupd : findItem (updateRow st db.order_id
              (fun x => { x with has_sold := true, price := s.price })) db.order_id
            = (findItem st db.order_id).map
              (fun x => { x with has_sold := true, price := s.price }) :=
          findItem_updateRow_self (fun it hit => hit)
        rw [← hk]
        rw [hupd, hk, hdb]
        simp [hk]
    · simp only [step1, postFind, hdb, hsi]
      have hk : fi.order_id = s.order_id := consistentSecB_some hc hsi
      have hupd : findItem (updateRow st fi.order_id (fun _ => fi)) fi.order_id
          = (findItem st fi.order_id).map (fun _ => fi) :=
        findItem_updateRow_self (fun it _ => rfl)
      rw [← hk]
      rw [hupd, hk, hdb]
      rfl

theorem step1_events (st : Store) (s : ItemSection) :
    (step1 st s).2.1 = eventsFor st s := by
  rcases hdb : findItem st s.order_id with _ | db
  · rcases hsi : s.item with _ | fi <;> simp [step1, eventsFor, hdb, hsi]
  · rcases hsi : s.item with _ | fi
    · simp only [step1, eventsFor, hdb, hsi]
      by_cases hsold : db.has_sold = true <;> simp [hsold]
    · simp [step1, eventsFor, hdb, hsi]

theorem step1_news (st : Store) (s : ItemSection) :
    (step1 st s).2.2 = newsFor st s := by
  rcases hdb : findItem st s.order_id with _ | db
  · rcases hsi : s.item with _ | fi <;> simp [step1, newsFor, hdb, hsi]
  · rcases hsi : s.item with _ | fi
    · simp only [step1, newsFor, hdb, hsi]
      by_cases hsold : db.has_sold = true <;> simp [hsold]
    · simp [step1, newsFor, hdb, hsi]

/-! ## Whole-loop lemmas -/

theorem phase1_keys : ∀ (scan : List ItemSection) (st : Store),
    consistentScan scan → keys (phase1 st scan).1 = keys st := by
  intro scan
  induction scan with
  | nil => intro st _; rfl
  | cons s rest ih =>
    intro st hc
    rw [phase1]
    exact (ih _ (consistentScan_rest hc)).trans (step1_keys st s (consistentScan_head hc))

theorem phase1_find_untouched : ∀ (scan : List ItemSection) (st : Store) (k : Int),
    consistentScan scan → ¬ k ∈ scanIds scan →
    findItem (phase1 st scan).1 k = findItem st k := by
  intro scan
  induction scan with
  | nil => intro st k _ _; rfl
  | cons s rest ih =>
    intro st k hc hk
    rw [scanIds, List.map_cons] at hk
    have hk1 : ¬ k = s.order_id := fun h => hk (List.mem_cons.mpr (Or.inl h))
    have hk2 : ¬ k ∈ scanIds rest := fun h => hk (List.mem_cons.mpr (Or.inr h))
    rw [phase1]
    exact (ih _ k (consistentScan_rest hc) hk2).trans
      (step1_find_ne st s k (consistentScan_head hc) hk1)

theorem postFind_congr {st st' : Store} {s : ItemSection}
    (h : findItem st' s.order_id = findItem st s.order_id) :
    postFind st' s = postFind st s := by
  rw [postFind, postFind, h]

theorem eventsFor_congr {st st' : Store} {s : ItemSection}
    (h : findItem st' s.order_id = findItem st s.order_id) :
    eventsFor st' s = eventsFor st s := by
  rw [eventsFor, eventsFor, h]

theorem newsFor_congr {st st' : Store} {s : ItemSection}
    (h : findItem st' s.order_id = findItem st s.order_id) :
    newsFor st' s = newsFor st s := by
  rw [newsFor, newsFor, h]

theorem eventsOf_congr : ∀ (scan : List ItemSection) (st st' : Store),
    (∀ t ∈ scan, findItem st' t.order_id = findItem st t.order_id) →
    eventsOf st' scan = eventsOf st scan := by
  intro scan
  induction scan with
  | nil => intro st st' _; rfl
  | cons s rest ih =>
    intro st st' h
    rw [eventsOf, eventsOf, eventsFor_congr (h s (List.mem_cons_self _ _)),
      ih st st' (fun t ht => h t (List.mem_cons_of_mem _ ht))]

theorem newsOf_congr : ∀ (scan : List ItemSection) (st st' : Store),
    (∀ t ∈ scan, findItem st' t.order_id = findItem st t.order_id) →
    newsOf st' scan = newsOf st scan := by
  intro scan
  induction scan with
  | nil => intro st st' _; rfl
  | cons s rest ih =>
    intro st st' h
    rw [newsOf, newsOf, newsFor_congr (h s (List.mem_cons_self _ _)),
      ih st st' (fun t ht => h t (List.mem_cons_of_mem _ ht))]

theorem scanIds_nodup_head {s : ItemSection} {rest : List ItemSection}
    (h : (scanIds (s :: rest)).Nodup) : ¬ s.order_id ∈ scanIds rest := by
  rw [scanIds, List.map_cons, List.nodup_cons] at h
  exact h.1

theorem scanIds_nodup_rest {s : ItemSection} {rest : List ItemSection}
    (h : (scanIds (s :: rest)).Nodup) : (scanIds rest).Nodup := by
  rw [scanIds, List.map_cons, List.nodup_cons] at h
  exact h.2

theorem step1_find_congr_rest {st : Store} {s : ItemSection} {rest : List ItemSection}
    (hc : consistentSecB s = true) (hd : ¬ s.order_id ∈ scanIds rest) :
    ∀ t ∈ rest, findItem (step1 st s).1 t.order_id = findItem st t.order_id := by
  intro t ht
  have hne : ¬ t.order_id = s.order_id := by
    intro h
    exact hd (h ▸ List.mem_map.mpr ⟨t, ht, rfl⟩)
  exact step1_find_ne st s t.order_id hc hne

theorem phase1_events : ∀ (scan : List ItemSection) (st : Store),
    consistentScan scan → (scanIds scan).Nodup →
    (phase1 st scan).2.1 = eventsOf st scan := by
  intro scan
  induction scan with
  | nil => intro st _ _; rfl
  | cons s rest ih =>
    intro st hc hn
    rw [phase1]
    show (step1 st s).2.1 ++ (phase1 (step1 st s).1 rest).2.1 = eventsOf st (s :: rest)
    rw [eventsOf, step1_events,
      ih _ (consistentScan_rest hc) (scanIds_nodup_rest hn),
      eventsOf_congr rest st (step1 st s).1
        (step1_find_congr_rest (consistentScan_head hc) (scanIds_nodup_head hn))]

theorem phase1_news : ∀ (scan : List ItemSection) (st : Store),
    consistentScan scan → (scanIds scan).Nodup →
    (phase1 st scan).2.2 = newsOf st scan := by
  intro scan
  induction scan with
  | nil => intro st _ _; rfl
  | cons s rest ih =>
    intro st hc hn
    rw [phase1]
    show (step1 st s).2.2 ++ (phase1 (step1 st s).1 rest).2.2 = newsOf st (s :: rest)
    rw [newsOf, step1_news,
      ih _ (consistentScan_rest hc) (scanIds_nodup_rest hn),
      newsOf_congr rest st (step1 st s).1
        (step1_find_congr_rest (consistentScan_head hc) (scanIds_nodup_head hn))]

theorem phase1_find_mem : ∀ (scan : List ItemSection) (st : Store) (s : ItemSection),
    consistentScan scan → (scanIds scan).Nodup → s ∈ scan →
    findItem (phase1 st scan).1 s.order_id = postFind st s := by
  intro scan
  induction scan with
  | nil => intro st s _ _ hs; exact absurd hs (List.not_mem_nil s)
  | cons t rest ih =>
    intro st s hc hn hs
    rw [phase1]
    show findItem (phase1 (step1 st t).1 rest).1 s.order_id = postFind st s
    rcases List.mem_cons.mp hs with h1 | h1
    · subst h1
      rw [phase1_find_untouched rest (step1 st s).1 s.order_id
        (consistentScan_rest hc) (scanIds_nodup_head hn)]
      exact step1_find_self st s (consistentScan_head hc)
    · rw [ih _ s (consistentScan_rest hc) (scanIds_nodup_rest hn) h1]
      exact postFind_congr
        (step1_find_congr_rest (consistentScan_head hc) (scanIds_nodup_head hn) s h1)

/-! ## Staged-insert lemmas -/

theorem keys_newsOf_sublist : ∀ (scan : List ItemSection) (st : Store),
    consistentScan scan → List.Sublist (keys (newsOf st scan)) (scanIds scan) := by
  intro scan
  induction scan with
  | nil =>
    intro st _
    exact List.Sublist.refl []
  | cons s rest ih =>
    intro st hc
    have hrest := ih st (consistentScan_rest hc)
    rw [newsOf, scanIds, List.map_cons, keys, List.map_append]
    rcases hdb : findItem st s.order_id with _ | db
    · rcases hsi : s.item with _ | fi
      · simp only [newsFor, hdb, hsi, List.map_nil, List.nil_append]
        exact List.Sublist.cons _ hrest
      · simp only [newsFor, hdb, hsi, List.map_cons, List.map_nil]
        have hk : fi.order_id = s.order_id :=
          consistentSecB_some (consistentScan_head hc) hsi
        rw [List.cons_append, List.nil_append, hk]
        exact List.Sublist.cons₂ _ hrest
    · simp only [newsFor, hdb, List.map_nil, List.nil_append]
      exact List.Sublist.cons _ hrest

theorem mem_keys_newsOf {scan : List ItemSection} {st : Store} {k : Int}
    (hc : consistentScan scan) (h : k ∈ keys (newsOf st scan)) : k ∈ scanIds scan :=
  (keys_newsOf_sublist scan st hc).subset h

theorem findItem_newsOf_none {scan : List ItemSection} {st : Store} {k : Int}
    (hc : consistentScan scan) (hk : ¬ k ∈ scanIds scan) :
    findItem (newsOf st scan) k = none :=
  findItem_eq_none_iff.mpr (fun hmem => hk (mem_keys_newsOf hc hmem))

theorem findItem_newsOf_some : ∀ (scan : List ItemSection) (st : Store)
    (s : ItemSection) (fi : Item),
    consistentScan scan → (scanIds scan).Nodup → s ∈ scan → s.item = some fi →
    findItem st s.order_id = none →
    findItem (newsOf st scan) s.order_id = some fi := by
  intro scan
  induction scan with
  | nil =>
    intro st s fi _ _ hs _ _
    exact absurd hs (List.not_mem_nil s)
  | cons t rest ih =>
    intro st s fi hc hn hs hi hnone
    rw [newsOf, findItem_append]
    rcases List.mem_cons.mp hs with h1 | h1
    · subst h1
      simp only [newsFor, hnone, hi]
      rw [findItem, if_pos (consistentSecB_some (consistentScan_head hc) hi)]
    · have hne : ¬ s.order_id = t.order_id :=
        fun h => (scanIds_nodup_head hn) (h ▸ List.mem_map.mpr ⟨s, h1, rfl⟩)
      have hhead : findItem (newsFor st t) s.order_id = none := by
        rcases hdb : findItem st t.order_id with _ | db
        · rcases hsi : t.item with _ | x
          · simp [newsFor, hdb, hsi, findItem]
          · simp only [newsFor, hdb, hsi]
            rw [findItem]
            have hx : x.order_id = t.order_id :=
              consistentSecB_some (consistentScan_head hc) hsi
            rw [if_neg (by rw [hx]; exact fun hh => hne hh.symm)]
            rfl
        · simp [newsFor, hdb, findItem]
      rw [hhead]
      exact ih st s fi (consistentScan_rest hc) (scanIds_nodup_rest hn) h1 hi hnone

theorem findItem_newsOf_none_of_item_none : ∀ (scan : List ItemSection) (st : Store)
    (s : ItemSection),
    consistentScan scan → (scanIds scan).Nodup → s ∈ scan → s.item = none →
    findItem (newsOf st scan) s.order_id = none := by
  intro scan
  induction scan with
  | nil =>
    intro st s _ _ hs _
    exact absurd hs (List.not_mem_nil s)
  | cons t rest ih =>
    intro st s hc hn hs hi
    rw [newsOf, findItem_append]
    rcases List.mem_cons.mp hs with h1 | h1
    · subst h1
      have hhead : newsFor st s = [] := by
        rcases hdb : findItem st s.order_id with _ | db
        · simp [newsFor, hdb, hi]
        · simp [newsFor, hdb]
      rw [hhead, findItem]
      exact findItem_newsOf_none (consistentScan_rest hc) (scanIds_nodup_head hn)
    · have hne : ¬ s.order_id = t.order_id :=
        fun h => (scanIds_nodup_head hn) (h ▸ List.mem_map.mpr ⟨s, h1, rfl⟩)
      have hhead : findItem (newsFor st t) s.order_id = none := by
        rcases hdb : findItem st t.order_id with _ | db
        · rcases hsi : t.item with _ | x
          · simp [newsFor, hdb, hsi, findItem]
          · simp only [newsFor, hdb, hsi]
            rw [findItem]
            have hx : x.order_id = t.order_id :=
              consistentSecB_some (consistentScan_head hc) hsi
            rw [if_neg (by rw [hx]; exact fun hh => hne hh.symm)]
            rfl
        · simp [newsFor, hdb, findItem]
      rw [hhead]
      exact ih st s (consistentScan_rest hc) (scanIds_nodup_rest hn) h1 hi

theorem step1_news_mem {st : Store} {s : ItemSection} {fi : Item}
    (h : fi ∈ (step1 st s).2.2) : s.item = some fi := by
  rcases hdb : findItem st s.order_id with _ | db
  · rcases hsi : s.item with _ | x
    · simp [step1, hdb, hsi] at h
    · simp only [step1, hdb, hsi, List.mem_singleton] at h
      rw [h]
  · rcases hsi : s.item with _ | x
    · simp only [step1, hdb, hsi] at h
      by_cases hsold : db.has_sold = true
      · rw [if_pos hsold] at h
        simp at h
      · rw [if_neg hsold] at h
        simp at h
    · simp [step1, hdb, hsi] at h

theorem phase1_news_mem : ∀ (scan : List ItemSection) (st : Store) (fi : Item),
    fi ∈ (phase1 st scan).2.2 → ∃ s ∈ scan, s.item = some fi := by
  intro scan
  induction scan with
  | nil =>
    intro st fi h
    exact absurd h (List.not_mem_nil fi)
  | cons s rest ih =>
    intro st fi h
    rw [phase1] at h
    rcases List.mem_append.mp h with h1 | h1
    · exact ⟨s, List.mem_cons_self _ _, step1_news_mem h1⟩
    · obtain ⟨t, ht, hti⟩ := ih _ fi h1
      exact ⟨t, List.mem_cons_of_mem _ ht, hti⟩

/-! ## Event-count lemmas -/

theorem step1_no_removed (st : Store) (s : ItemSection) (k : Int) :
    ((step1 st s).2.1).countP (isRemovedFor k) = 0 := by
  rcases hdb : findItem st s.order_id with _ | db
  · rcases hsi : s.item with _ | fi <;> simp [step1, hdb, hsi, isRemovedFor]
  · rcases hsi : s.item with _ | fi
    · simp only [step1, hdb, hsi]
      by_cases hsold : db.has_sold = true
      · rw [if_pos hsold]
        rfl
      · rw [if_neg hsold]
        simp [isRemovedFor]
    · simp only [step1, hdb, hsi]
      by_cases hp : fi.price = db.price
      · rw [if_pos hp]
        rfl
      · rw [if_neg hp]
        simp [isRemovedFor]

theorem phase1_no_removed : ∀ (scan : List ItemSection) (st : Store) (k : Int),
    ((phase1 st scan).2.1).countP (isRemovedFor k) = 0 := by
  intro scan
  induction scan with
  | nil => intro st k; rfl
  | cons s rest ih =>
    intro st k
    rw [phase1]
    show ((step1 st s).2.1 ++ (phase1 (step1 st s).1 rest).2.1).countP _ = 0
    rw [List.countP_append, step1_no_removed st s k, ih (step1 st s).1 k]

theorem eventsFor_pc_count_ne {st : Store} {s : ItemSection} {k : Int}
    (hc : consistentSecB s = true) (hne : ¬ k = s.order_id) :
    (eventsFor st s).countP (isPriceChangedFor k) = 0 := by
  rcases hdb : findItem st s.order_id with _ | db
  · rcases hsi : s.item with _ | fi
    · simp [eventsFor, hdb, hsi]
    · simp [eventsFor, hdb, hsi, isPriceChangedFor]
  · rcases hsi : s.item with _ | fi
    · simp only [eventsFor, hdb, hsi]
      by_cases hsold : db.has_sold = true
      · rw [if_pos hsold]
        rfl
      · rw [if_neg hsold]
        simp [isPriceChangedFor]
    · simp only [eventsFor, hdb, hsi]
      by_cases hp : fi.price = db.price
      · rw [if_pos hp]
        rfl
      · rw [if_neg hp]
        have hk : fi.order_id = s.order_id := consistentSecB_some hc hsi
        simp [isPriceChangedFor, List.countP_cons]
        intro h
        exact absurd (hk ▸ h) (fun hh => hne hh.symm)

theorem eventsOf_pc_count_notin : ∀ (scan : List ItemSection) (st : Store) (k : Int),
    consistentScan scan → ¬ k ∈ scanIds scan →
    (eventsOf st scan).countP (isPriceChangedFor k) = 0 := by
  intro scan
  induction scan with
  | nil => intro st k _ _; rfl
  | cons s rest ih =>
    intro st k hc hk
    rw [scanIds, List.map_cons] at hk
    have hk1 : ¬ k = s.order_id := fun h => hk (List.mem_cons.mpr (Or.inl h))
    have hk2 : ¬ k ∈ scanIds rest := fun h => hk (List.mem_cons.mpr (Or.inr h))
    rw [eventsOf, List.countP_append,
      eventsFor_pc_count_ne (consistentScan_head hc) hk1,
      ih st k (consistentScan_rest hc) hk2]

theorem eventsOf_pc_count_mem : ∀ (scan : List ItemSection) (st : Store)
    (s : ItemSection),
    consistentScan scan → (scanIds scan).Nodup → s ∈ scan →
    (eventsOf st scan).countP (isPriceChangedFor s.order_id)
      = (eventsFor st s).countP (isPriceChangedFor s.order_id) := by
  intro scan
  induction scan with
  | nil =>
    intro st s _ _ hs
    exact absurd hs (List.not_mem_nil s)
  | cons t rest ih =>
    intro st s hc hn hs
    rw [eventsOf, List.countP_append]
    rcases List.mem_cons.mp hs with h1 | h1
    · subst h1
      rw [eventsOf_pc_count_notin rest st s.order_id
        (consistentScan_rest hc) (scanIds_nodup_head hn)]
      exact Nat.add_zero _
    · have hne : ¬ s.order_id = t.order_id :=
        fun h => (scanIds_nodup_head hn) (h ▸ List.mem_map.mpr ⟨s, h1, rfl⟩)
      rw [eventsFor_pc_count_ne (consistentScan_head hc) hne,
        ih st s (consistentScan_rest hc) (scanIds_nodup_rest hn) h1]
      exact Nat.zero_add _

theorem eventsFor_mem_eventsOf : ∀ (scan : List ItemSection) (st : Store)
    (s : ItemSection) (e : Event),
    s ∈ scan → e ∈ eventsFor st s → e ∈ eventsOf st scan := by
  intro scan
  induction scan with
  | nil =>
    intro st s e hs _
    exact absurd hs (List.not_mem_nil s)
  | cons t rest ih =>
    intro st s e hs he
    rw [eventsOf]
    rcases List.mem_cons.mp hs with h1 | h1
    · subst h1
      exact List.mem_append.mpr (Or.inl he)
    · exact List.mem_append.mpr (Or.inr (ih st s e h1 he))

/-! ## Deletion-phase lemmas -/

theorem ok_pair_inj {ε α β : Type} {a a' : α} {b b' : β}
    (h : (Except.ok (a, b) : Except ε (α × β)) = Except.ok (a', b')) :
    a = a' ∧ b = b' :=
  ⟨congrArg Prod.fst (Except.ok.inj h), congrArg Prod.snd (Except.ok.inj h)⟩

theorem deletePhase_spec : ∀ (ids : List Int) (st : Store),
    (∀ k ∈ ids, k ∈ keys st) → ids.Nodup →
    ∃ st2 evs, deletePhase st ids = Except.ok (st2, evs)
      ∧ (∀ x, findItem st2 x = if memInt x ids then none else findItem st x)
      ∧ List.Sublist st2 st
      ∧ (∀ x, evs.countP (isRemovedFor x) = if memInt x ids then 1 else 0)
      ∧ (∀ x it, memInt x ids = true → findItem st x = some it →
          Event.removed it ∈ evs)
      ∧ (∀ e ∈ evs, ∃ it, e = Event.removed it) := by
  intro ids
  induction ids with
  | nil =>
    intro st _ _
    refine ⟨st, [], rfl, ?_, List.Sublist.refl st, ?_, ?_, ?_⟩
    · intro x
      simp [memInt]
    · intro x
      simp [memInt]
    · intro x it hmem _
      simp [memInt] at hmem
    · intro e he
      exact absurd he (List.not_mem_nil e)
  | cons k rest ih =>
    intro st hmem hnd
    obtain ⟨it, hit⟩ := findItem_isSome_of_mem_keys (hmem k (List.mem_cons_self _ _))
    have hknr : ¬ k ∈ rest := (List.nodup_cons.mp hnd).1
    have hmem2 : ∀ x ∈ rest, x ∈ keys (deleteRow st k) := by
      intro x hx
      have hne : ¬ x = k := fun h => hknr (h ▸ hx)
      exact keys_deleteRow_mem.mpr ⟨hmem x (List.mem_cons_of_mem _ hx), hne⟩
    obtain ⟨st2, evs, hdel, hfind, hsub, hcount, hremmem, hshape⟩ :=
      ih (deleteRow st k) hmem2 (List.nodup_cons.mp hnd).2
    have hkey : it.order_id = k := findItem_some_key hit
    refine ⟨st2, Event.removed it :: evs, ?_, ?_, ?_, ?_, ?_, ?_⟩
    · rw [deletePhase, hit, hdel]
    · intro x
      rw [hfind x, memInt]
      by_cases hx : k = x
      · subst hx
        rw [if_pos rfl, if_pos rfl]
        by_cases hr : memInt k rest = true
        · rw [if_pos hr]
        · rw [if_neg hr, findItem_deleteRow_self]
      · rw [if_neg hx, findItem_deleteRow_ne (fun hh => hx hh.symm)]
    · exact hsub.trans (deleteRow_sublist st k)
    · intro x
      rw [List.countP_cons, hcount x, memInt]
      by_cases hx : k = x
      · subst hx
        have hr : ¬ memInt k rest = true := fun h => hknr ((memInt_iff k rest).mp h)
        rw [if_neg hr, if_pos rfl, if_pos rfl]
        simp [isRemovedFor, hkey]
      · rw [if_neg hx]
        have hpred : isRemovedFor x (Event.removed it) = false := by
          simp [isRemovedFor, hkey]
          exact hx
        rw [hpred]
        simp
    · intro x it0 hmem0 hfind0
      rw [memInt] at hmem0
      by_cases hx : k = x
      · subst hx
        rw [hfind0] at hit
        cases Option.some.inj hit
        exact List.mem_cons_self _ _
      · rw [if_neg hx] at hmem0
        have hfind1 : findItem (deleteRow st k) x = some it0 := by
          rw [findItem_deleteRow_ne (fun hh => hx hh.symm)]
          exact hfind0
        exact List.mem_cons_of_mem _ (hremmem x it0 hmem0 hfind1)
    · intro e he
      rcases List.mem_cons.mp he with h1 | h1
      · exact ⟨it, h1⟩
      · exact hshape e h1

/-! ## The settled second run -/

theorem phase1_settled : ∀ (scan : List ItemSection) (st : Store),
    keysNodup st → consistentScan scan → (∀ s ∈ scan, settledSec st s) →
    phase1 st scan = (st, [], []) := by
  intro scan
  induction scan with
  | nil => intro st _ _ _; rfl
  | cons s rest ih =>
    intro st hnd hc hset
    have hstep : step1 st s = (st, [], []) := by
      rcases hsi : s.item with _ | fi
      · rcases (hset s (List.mem_cons_self _ _)).2 hsi with h1 | ⟨db, hdb, hsold⟩
        · simp [step1, h1, hsi]
        · simp only [step1, hdb, hsi]
          rw [if_pos hsold]
      · have hf : findItem st s.order_id = some fi :=
          (hset s (List.mem_cons_self _ _)).1 fi hsi
        have hk : fi.order_id = s.order_id :=
          consistentSecB_some (consistentScan_head hc) hsi
        have hupd : updateRow st fi.order_id (fun _ => fi) = st :=
          updateRow_const_self hnd (by rw [hk]; exact hf)
        simp only [step1, hf, hsi]
        simp [hupd]
    rw [phase1, hstep]
    have hrest := ih st hnd (consistentScan_rest hc)
      (fun t ht => hset t (List.mem_cons_of_mem _ ht))
    simp [hrest]

/-! ## Whole-run lemmas -/

theorem if_append_eq (st : Store) (l : List Item) :
    (if l = [] then st else st ++ l) = st ++ l := by
  by_cases h : l = []
  · rw [if_pos h, h, List.append_nil]
  · rw [if_neg h]

theorem reconcile_eq (store0 : Store) (scan : List ItemSection) :
    reconcile store0 scan =
      (match deletePhase
          ((phase1 store0 scan).1 ++ (phase1 store0 scan).2.2)
          ((keys ((phase1 store0 scan).1 ++ (phase1 store0 scan).2.2)).filter
            (fun k => !(memInt k (scanIds scan)))) with
       | Except.ok r => Except.ok (r.1, (phase1 store0 scan).2.1 ++ r.2)
       | Except.error e => Except.error e) := by
  rw [reconcile]
  rw [if_append_eq]

theorem newsOf_mem : ∀ (scan : List ItemSection) (st : Store) (fi : Item),
    fi ∈ newsOf st scan →
    ∃ s ∈ scan, s.item = some fi ∧ findItem st s.order_id = none := by
  intro scan
  induction scan with
  | nil =>
    intro st fi h
    exact absurd h (List.not_mem_nil fi)
  | cons t rest ih =>
    intro st fi h
    rw [newsOf] at h
    rcases List.mem_append.mp h with h1 | h1
    · rcases hdb : findItem st t.order_id with _ | db
      · rcases hsi : t.item with _ | x
        · simp [newsFor, hdb, hsi] at h1
        · simp only [newsFor, hdb, hsi, List.mem_singleton] at h1
          exact ⟨t, List.mem_cons_self _ _, by rw [hsi, h1], hdb⟩
      · simp [newsFor, hdb] at h1
    · obtain ⟨s, hs, hi, hn⟩ := ih st fi h1
      exact ⟨s, List.mem_cons_of_mem _ hs, hi, hn⟩

theorem mem_keys_newsOf_scan {scan : List ItemSection} {st : Store} {k : Int}
    (hc : consistentScan scan) (h : k ∈ keys (newsOf st scan)) :
    k ∈ scanIds scan ∧ findItem st k = none := by
  obtain ⟨fi, hfi, hkey⟩ := List.mem_map.mp h
  obtain ⟨s, hs, hi, hn⟩ := newsOf_mem scan st fi hfi
  have hso : fi.order_id = s.order_id := consistentSecB_some (hc s hs) hi
  subst hkey
  rw [hso]
  exact ⟨List.mem_map.mpr ⟨s, hs, rfl⟩, hn⟩

theorem delFilter_eq (store0 : Store) (scan : List ItemSection)
    (hc : consistentScan scan) :
    (keys ((phase1 store0 scan).1 ++ (phase1 store0 scan).2.2)).filter
        (fun k => !(memInt k (scanIds scan)))
      = (keys store0).filter (fun k => !(memInt k (scanIds scan))) := by
  rw [keys_append, List.filter_append, phase1_keys scan store0 hc]
  have h2 : (keys (phase1 store0 scan).2.2).filter
      (fun k => !(memInt k (scanIds scan))) = [] := by
    rw [List.filter_eq_nil_iff]
    intro k hk
    obtain ⟨fi, hfi, hkey⟩ := List.mem_map.mp hk
    obtain ⟨s, hs, hi⟩ := phase1_news_mem scan store0 fi hfi
    have hmem : memInt k (scanIds scan) = true := by
      rw [memInt_iff]
      subst hkey
      rw [consistentSecB_some (hc s hs) hi]
      exact List.mem_map.mpr ⟨s, hs, rfl⟩
    simp [hmem]
  rw [h2, List.append_nil]

theorem reconcile_spec_weak (store0 : Store) (scan : List ItemSection)
    (hnd : keysNodup store0) (hc : consistentScan scan) :
    ∃ stF evs, reconcile store0 scan = Except.ok (stF, evs)
      ∧ ∀ k, ¬ k ∈ scanIds scan → k ∈ keys store0 →
          (findItem stF k = none
           ∧ evs.countP (isRemovedFor k) = 1
           ∧ ∀ db, findItem store0 k = some db → Event.removed db ∈ evs) := by
  have hdelnodup : ((keys store0).filter
      (fun k => !(memInt k (scanIds scan)))).Nodup := hnd.filter _
  have hmemdel : ∀ k ∈ (keys store0).filter (fun k => !(memInt k (scanIds scan))),
      k ∈ keys ((phase1 store0 scan).1 ++ (phase1 store0 scan).2.2) := by
    intro k hk
    rw [keys_append, List.mem_append]
    exact Or.inl ((phase1_keys scan store0 hc) ▸ (List.mem_filter.mp hk).1)
  obtain ⟨stF, evs2, hdelph, hfind, _hsub, hcount, hremmem, _hshape⟩ :=
    deletePhase_spec ((keys store0).filter (fun k => !(memInt k (scanIds scan))))
      ((phase1 store0 scan).1 ++ (phase1 store0 scan).2.2) hmemdel hdelnodup
  refine ⟨stF, (phase1 store0 scan).2.1 ++ evs2, ?_, ?_⟩
  · rw [reconcile_eq, delFilter_eq store0 scan hc, hdelph]
  · intro k hkns hk0
    have hkdel : k ∈ (keys store0).filter (fun x => !(memInt x (scanIds scan))) := by
      rw [List.mem_filter]
      refine ⟨hk0, ?_⟩
      have hm : ¬ memInt k (scanIds scan) = true :=
        fun h => hkns ((memInt_iff _ _).mp h)
      simp [hm]
    have hkdelB : memInt k ((keys store0).filter
        (fun x => !(memInt x (scanIds scan)))) = true := (memInt_iff _ _).mpr hkdel
    refine ⟨?_, ?_, ?_⟩
    · rw [hfind k, if_pos hkdelB]
    · rw [List.countP_append, phase1_no_removed, hcount k, if_pos hkdelB]
    · intro db hdb
      have hst2 : findItem ((phase1 store0 scan).1 ++ (phase1 store0 scan).2.2) k
          = some db := by
        rw [findItem_append, phase1_find_untouched scan store0 k hc hkns, hdb]
      exact List.mem_append.mpr (Or.inr (hremmem k db hkdelB hst2))

theorem reconcile_spec_strong (store0 : Store) (scan : List ItemSection)
    (hnd : keysNodup store0) (hc : consistentScan scan)
    (hsn : (scanIds scan).Nodup) :
    ∃ stF evs2, reconcile store0 scan
        = Except.ok (stF, eventsOf store0 scan ++ evs2)
      ∧ keysNodup stF
      ∧ (∀ k, k ∈ keys stF → k ∈ scanIds scan)
      ∧ (∀ s ∈ scan, findItem stF s.order_id = finalFind store0 s)
      ∧ (∀ e ∈ evs2, ∃ it, e = Event.removed it) := by
  have hpe := phase1_events scan store0 hc hsn
  have hpn := phase1_news scan store0 hc hsn
  have hkeysA := phase1_keys scan store0 hc
  have hnewskeys : ∀ k ∈ keys (phase1 store0 scan).2.2,
      k ∈ scanIds scan ∧ findItem store0 k = none := by
    rw [hpn]
    exact fun k hk => mem_keys_newsOf_scan hc hk
  have hst2nodup : (keys ((phase1 store0 scan).1 ++ (phase1 store0 scan).2.2)).Nodup := by
    rw [keys_append, hkeysA]
    refine hnd.append ?_ ?_
    · rw [hpn]
      exact hsn.sublist (keys_newsOf_sublist scan store0 hc)
    · intro k hk1 hk2
      exact absurd ((findItem_eq_none_iff).mpr
        (fun hmem => (findItem_eq_none_iff.mp (hnewskeys k hk2).2) hmem))
        (fun _ => (findItem_eq_none_iff.mp (hnewskeys k hk2).2) hk1)
  have hdelnodup : ((keys store0).filter
      (fun k => !(memInt k (scanIds scan)))).Nodup := hnd.filter _
  have hmemdel : ∀ k ∈ (keys store0).filter (fun k => !(memInt k (scanIds scan))),
      k ∈ keys ((phase1 store0 scan).1 ++ (phase1 store0 scan).2.2) := by
    intro k hk
    rw [keys_append, List.mem_append]
    exact Or.inl (hkeysA ▸ (List.mem_filter.mp hk).1)
  obtain ⟨stF, evs2, hdelph, hfind, hsub, _hcount, _hremmem, hshape⟩ :=
    deletePhase_spec ((keys store0).filter (fun k => !(memInt k (scanIds scan))))
      ((phase1 store0 scan).1 ++ (phase1 store0 scan).2.2) hmemdel hdelnodup
  refine ⟨stF, evs2, ?_, ?_, ?_, ?_, hshape⟩
  · rw [reconcile_eq, delFilter_eq store0 scan hc, hdelph, hpe]
  · exact hst2nodup.sublist (hsub.map _)
  · intro k hk
    by_contra hkns
    obtain ⟨it, hit⟩ := findItem_isSome_of_mem_keys hk
    have hk2 : k ∈ keys ((phase1 store0 scan).1 ++ (phase1 store0 scan).2.2) :=
      (List.Sublist.map (fun it => it.order_id) hsub).subset hk
    have hk0 : k ∈ keys store0 := by
      rw [keys_append, List.mem_append] at hk2
      rcases hk2 with h1 | h1
      · exact hkeysA ▸ h1
      · exact absurd (hnewskeys k h1).1 hkns
    have hkdelB : memInt k ((keys store0).filter
        (fun x => !(memInt x (scanIds scan)))) = true := by
      rw [memInt_iff, List.mem_filter]
      refine ⟨hk0, ?_⟩
      have hm : ¬ memInt k (scanIds scan) = true :=
        fun h => hkns ((memInt_iff _ _).mp h)
      simp [hm]
    rw [hfind k, if_pos hkdelB] at hit
    exact Option.noConfusion hit
  · intro s hs
    have hsdel : ¬ memInt s.order_id ((keys store0).filter
        (fun x => !(memInt x (scanIds scan)))) = true := by
      intro h
      have hmem := (memInt_iff _ _).mp h
      have hpred := (List.mem_filter.mp hmem).2
      have : memInt s.order_id (scanIds scan) = true :=
        (memInt_iff _ _).mpr (List.mem_map.mpr ⟨s, hs, rfl⟩)
      rw [this] at hpred
      exact Bool.noConfusion hpred
    rw [hfind s.order_id, if_neg hsdel, findItem_append,
      phase1_find_mem scan store0 s hc hsn hs]
    rcases hdb : findItem store0 s.order_id with _ | db
    · rcases hsi : s.item with _ | fi
      · simp only [postFind, finalFind, hdb, hsi]
        rw [hpn]
        exact findItem_newsOf_none_of_item_none scan store0 s hc hsn hs hsi
      · simp only [postFind, finalFind, hdb, hsi]
        rw [hpn]
        exact findItem_newsOf_some scan store0 s fi hc hsn hs hsi hdb
    · rcases hsi : s.item with _ | fi
      · simp only [postFind, finalFind, hdb, hsi]
      · simp only [postFind, finalFind, hdb, hsi]

/-! ## Reconciler claims -/

/-- C4 counterexample: reconciliation is not idempotent for every ordered
scan.  With an empty store and the scan [new listing for order 1 at price
10, sold marker for order 1 at price 20], the first run only inserts the
listing (the sold marker still finds no persisted record, because staged
inserts are flushed after the loop), so the second run, against the state
the first run left, finds the now-persisted record, emits a sold event and
mutates it — a non-empty second-pass event list and a changed store. -/
theorem C4_counterexample :
    reconcile [] [⟨some ⟨1, "A", none, none, 10, false, false⟩, 1, 10⟩,
        ⟨none, 1, 20⟩]
      = Except.ok ([⟨1, "A", none, none, 10, false, false⟩],
          [Event.newListing ⟨1, "A", none, none, 10, false, false⟩])
    ∧ reconcile [⟨1, "A", none, none, 10, false, false⟩]
        [⟨some ⟨1, "A", none, none, 10, false, false⟩, 1, 10⟩, ⟨none, 1, 20⟩]
      = Except.ok ([⟨1, "A", none, none, 20, true, false⟩],
          [Event.sold ⟨1, "A", none, none, 10, false, false⟩])
    ∧ ¬ reconcile [⟨1, "A", none, none, 10, false, false⟩]
        [⟨some ⟨1, "A", none, none, 10, false, false⟩, 1, 10⟩, ⟨none, 1, 20⟩]
      = Except.ok ([⟨1, "A", none, none, 10, false, false⟩], []) := by
  decide

/-- C4 (amended): reconciliation is idempotent for every scan whose
sections carry pairwise-distinct order ids and are internally consistent
(a present listing's key is its section's key), against a store with
distinct keys: a second run over the state the first run left performs no
store mutation and emits no events. -/
theorem C4_idempotent (store0 : Store) (scan : List ItemSection)
    (st1 : Store) (evs1 : List Event)
    (hnd : keysNodup store0) (hc : consistentScan scan)
    (hsn : (scanIds scan).Nodup)
    (hrun : reconcile store0 scan = Except.ok (st1, evs1)) :
    reconcile st1 scan = Except.ok (st1, []) := by
  obtain ⟨stF, evs2, hok, hndF, hkeysF, hfinds, _⟩ :=
    reconcile_spec_strong store0 scan hnd hc hsn
  rw [hok] at hrun
  obtain ⟨h1, _h2⟩ := ok_pair_inj hrun
  subst h1
  have hset : ∀ s ∈ scan, settledSec stF s := by
    intro s hs
    constructor
    · intro fi hfi
      rw [hfinds s hs]
      rcases hdb : findItem store0 s.order_id with _ | db <;>
        simp [finalFind, hdb, hfi]
    · intro hnone
      rcases hdb : findItem store0 s.order_id with _ | db
      · exact Or.inl (by rw [hfinds s hs]; simp [finalFind, hdb, hnone])
      · refine Or.inr ⟨if db.has_sold then db
            else { db with has_sold := true, price := s.price }, ?_, ?_⟩
        · rw [hfinds s hs]
          simp only [finalFind, hdb, hnone]
        · by_cases hsold : db.has_sold = true
          · rw [if_pos hsold]
            exact hsold
          · rw [if_neg hsold]
  have hph : phase1 stF scan = (stF, [], []) :=
    phase1_settled scan stF hndF hc hset
  have hdel : (keys stF).filter (fun k => !(memInt k (scanIds scan))) = [] := by
    rw [List.filter_eq_nil_iff]
    intro k hk
    have hm := (memInt_iff k (scanIds scan)).mpr (hkeysF k hk)
    simp [hm]
  rw [reconcile_eq, hph]
  show (match deletePhase (stF ++ [])
      ((keys (stF ++ [])).filter (fun k => !(memInt k (scanIds scan)))) with
    | Except.ok r => Except.ok (r.1, [] ++ r.2)
    | Except.error e => Except.error e) = Except.ok (stF, [])
  rw [List.append_nil, hdel]
  rfl

/-- Witness for C4: a store holding order 5 at price 7 and a scan
re-listing it unchanged — the second run is a no-op. -/
theorem C4_witness :
    reconcile [⟨5, "W", none, none, 7, false, false⟩]
        [⟨some ⟨5, "W", none, none, 7, false, false⟩, 5, 7⟩]
      = Except.ok ([⟨5, "W", none, none, 7, false, false⟩], []) :=
  C4_idempotent [] [⟨some ⟨5, "W", none, none, 7, false, false⟩, 5, 7⟩]
    [⟨5, "W", none, none, 7, false, false⟩]
    [Event.newListing ⟨5, "W", none, none, 7, false, false⟩]
    (by decide) (by decide) (by decide) (by decide)

/-- C5: when an order id is present in both the scan (with a listing whose
key is the section's key) and the store, with differing prices, the run
emits exactly one price-changed event for that id, that event carries the
stored (old) price, the scanned (new) price and the scanned listing, and
the final store holds the scanned listing (in particular its price) under
that id.  Scan ids are pairwise distinct and the store's keys are unique,
as the data model prescribes. -/
theorem C5_price_changed (store0 : Store) (scan : List ItemSection)
    (s : ItemSection) (fi db : Item) (stF : Store) (evs : List Event)
    (hnd : keysNodup store0) (hc : consistentScan scan)
    (hsn : (scanIds scan).Nodup)
    (hs : s ∈ scan) (hitem : s.item = some fi)
    (hdb : findItem store0 s.order_id = some db)
    (hpr : ¬ fi.price = db.price)
    (hrun : reconcile store0 scan = Except.ok (stF, evs)) :
    evs.countP (isPriceChangedFor s.order_id) = 1
    ∧ Event.priceChanged db.price fi.price fi ∈ evs
    ∧ findItem stF s.order_id = some fi := by
  obtain ⟨stF', evs2, hok, _hndF, _hkeysF, hfinds, hshape⟩ :=
    reconcile_spec_strong store0 scan hnd hc hsn
  rw [hok] at hrun
  obtain ⟨h1, h2⟩ := ok_pair_inj hrun
  subst h1
  rw [← h2]
  have hef : eventsFor store0 s = [Event.priceChanged db.price fi.price fi] := by
    simp only [eventsFor, hdb, hitem]
    rw [if_neg hpr]
  refine ⟨?_, ?_, ?_⟩
  · rw [List.countP_append, eventsOf_pc_count_mem scan store0 s hc hsn hs, hef]
    have hz : evs2.countP (isPriceChangedFor s.order_id) = 0 := by
      rw [List.countP_eq_zero]
      intro e he
      obtain ⟨it, rfl⟩ := hshape e he
      simp [isPriceChangedFor]
    rw [hz]
    have hpred : isPriceChangedFor s.order_id
        (Event.priceChanged db.price fi.price fi) = true := by
      simp [isPriceChangedFor, consistentSecB_some (hc s hs) hitem]
    simp [List.countP_cons, hpred]
  · refine List.mem_append.mpr (Or.inl
      (eventsFor_mem_eventsOf scan store0 s _ hs ?_))
    rw [hef]
    exact List.mem_singleton.mpr rfl
  · rw [hfinds s hs]
    simp only [finalFind, hdb, hitem]

/-- Witness for C5: order 9 listed at 250 against a stored price of 100. -/
theorem C5_witness :
    (List.countP (isPriceChangedFor 9)
        [Event.priceChanged 100 250 ⟨9, "Old", none, none, 250, false, false⟩]) = 1
    ∧ Event.priceChanged 100 250 ⟨9, "Old", none, none, 250, false, false⟩
        ∈ [Event.priceChanged 100 250 ⟨9, "Old", none, none, 250, false, false⟩]
    ∧ findItem [⟨9, "Old", none, none, 250, false, false⟩] 9
        = some ⟨9, "Old", none, none, 250, false, false⟩ :=
  C5_price_changed [⟨9, "Old", none, none, 100, false, false⟩]
    [⟨some ⟨9, "Old", none, none, 250, false, false⟩, 9, 250⟩]
    ⟨some ⟨9, "Old", none, none, 250, false, false⟩, 9, 250⟩
    ⟨9, "Old", none, none, 250, false, false⟩
    ⟨9, "Old", none, none, 100, false, false⟩
    [⟨9, "Old", none, none, 250, false, false⟩]
    [Event.priceChanged 100 250 ⟨9, "Old", none, none, 250, false, false⟩]
    (by decide) (by decide) (by decide) (by decide) (by decide) (by decide)
    (by decide) (by decide)

/-- C6: an order id persisted but absent from the scan is removed exactly
once: one removal event (carrying the stored record) is emitted and the
record is deleted; and whenever the deletion loop's lookup of a key finds
no record, the run aborts with the fatal `ItemNotFound` consistency error
instead of continuing. -/
theorem C6_removed (store0 : Store) (scan : List ItemSection) (k : Int)
    (db : Item) (stF : Store) (evs : List Event)
    (stX : Store) (restX : List Int)
    (hnd : keysNodup store0) (hc : consistentScan scan)
    (hdb : findItem store0 k = some db) (hns : ¬ k ∈ scanIds scan)
    (hrun : reconcile store0 scan = Except.ok (stF, evs))
    (habs : findItem stX k = none) :
    evs.countP (isRemovedFor k) = 1
    ∧ findItem stF k = none
    ∧ Event.removed db ∈ evs
    ∧ deletePhase stX (k :: restX) = Except.error RecError.itemNotFound := by
  obtain ⟨stF', evs', hok, hprops⟩ := reconcile_spec_weak store0 scan hnd hc
  rw [hok] at hrun
  obtain ⟨h1, h2⟩ := ok_pair_inj hrun
  subst h1
  subst h2
  have hk0 : k ∈ keys store0 :=
    (findItem_some_key hdb) ▸ mem_keys_of_mem (findItem_some_mem hdb)
  obtain ⟨ha, hb, hcrem⟩ := hprops k hns hk0
  refine ⟨hb, ha, hcrem db hdb, ?_⟩
  rw [deletePhase, habs]

/-- Witness for C6: order 3 persisted, empty scan — removed exactly once;
and a lookup miss in the deletion loop aborts. -/
theorem C6_witness :
    (List.countP (isRemovedFor 3)
        [Event.removed ⟨3, "Gone", none, none, 10, false, false⟩]) = 1
    ∧ findItem ([] : Store) 3 = none
    ∧ Event.removed ⟨3, "Gone", none, none, 10, false, false⟩
        ∈ [Event.removed ⟨3, "Gone", none, none, 10, false, false⟩]
    ∧ deletePhase ([] : Store) [3] = Except.error RecError.itemNotFound :=
  C6_removed [⟨3, "Gone", none, none, 10, false, false⟩] [] 3
    ⟨3, "Gone", none, none, 10, false, false⟩ []
    [Event.removed ⟨3, "Gone", none, none, 10, false, false⟩] [] []
    (by decide) (by decide) (by decide) (by decide) (by decide) (by decide)

/-! ## The data-model invariant (C9) -/

theorem mkSection_item_fields (n0 k0 : Option (List Char)) (ext : Option Exterior)
    (oid : Int) (pl : String) (sec : ItemSection) (it : Item)
    (h : mkSection n0 k0 ext oid pl = ParseResult.ok sec)
    (hi : sec.item = some it) :
    it.exterior = ext ∧ it.kind = (k0.map trimChars).map String.mk := by
  unfold mkSection at h
  split at h
  · exact ParseResult.noConfusion h
  · exact ParseResult.noConfusion h
  · split at h
    · cases ParseResult.ok.inj h
      cases Option.some.inj hi
      exact ⟨rfl, rfl⟩
    · cases ParseResult.ok.inj h
      exact Option.noConfusion hi

theorem parse_item_section_inv (n p : String) (sec : ItemSection) (it : Item)
    (h : parse_item_section n p = ParseResult.ok sec)
    (hi : sec.item = some it) : itemInv it := by
  unfold parse_item_section at h
  split at h
  · split at h
    · split at h
      · exact ParseResult.noConfusion h
      · obtain ⟨he, hk⟩ := mkSection_item_fields _ _ _ _ _ _ _ h hi
        rw [itemInv, he, hk]
        rfl
    · split at h
      · exact ParseResult.noConfusion h
      · split at h
        · exact ParseResult.noConfusion h
        · obtain ⟨he, hk⟩ := mkSection_item_fields _ _ _ _ _ _ _ h hi
          rw [itemInv, he, hk]
          rfl
  · split at h
    · exact ParseResult.noConfusion h
    · split at h
      · exact ParseResult.noConfusion h
      · split at h
        · exact ParseResult.noConfusion h
        · obtain ⟨he, hk⟩ := mkSection_item_fields _ _ _ _ _ _ _ h hi
          rw [itemInv, he, hk]
          rfl
  · exact ParseResult.noConfusion h

theorem secInvB_some {s : ItemSection} {fi : Item}
    (h : secInvB s = true) (hi : s.item = some fi) : itemInv fi := by
  simp only [secInvB, hi] at h
  exact eq_of_beq h

theorem itemInv_soldUpdate {it : Item} (p : Int) (h : itemInv it) :
    itemInv { it with has_sold := true, price := p } := h

theorem step1_store_inv {st : Store} {s : ItemSection}
    (hst : ∀ x ∈ st, itemInv x) (hs : secInvB s = true) :
    ∀ x ∈ (step1 st s).1, itemInv x := by
  intro x hx
  rcases hdb : findItem st s.order_id with _ | db
  · rcases hsi : s.item with _ | fi <;> simp only [step1, hdb, hsi] at hx <;>
      exact hst x hx
  · rcases hsi : s.item with _ | fi
    · simp only [step1, hdb, hsi] at hx
      by_cases hsold : db.has_sold = true
      · rw [if_pos hsold] at hx
        exact hst x hx
      · rw [if_neg hsold] at hx
        obtain ⟨it, hmem, heq⟩ := mem_updateRow hx
        by_cases hk : it.order_id = db.order_id
        · rw [heq, if_pos hk]
          exact itemInv_soldUpdate _ (hst it hmem)
        · rw [heq, if_neg hk]
          exact hst it hmem
    · simp only [step1, hdb, hsi] at hx
      obtain ⟨it, hmem, heq⟩ := mem_updateRow hx
      by_cases hk : it.order_id = fi.order_id
      · rw [heq, if_pos hk]
        exact secInvB_some hs hsi
      · rw [heq, if_neg hk]
        exact hst it hmem

theorem phase1_store_inv : ∀ (scan : List ItemSection) (st : Store),
    (∀ x ∈ st, itemInv x) → scanInv scan →
    ∀ x ∈ (phase1 st scan).1, itemInv x := by
  intro scan
  induction scan with
  | nil =>
    intro st hst _ x hx
    exact hst x hx
  | cons s rest ih =>
    intro st hst hsc x hx
    rw [phase1] at hx
    exact ih (step1 st s).1
      (step1_store_inv hst (hsc s (List.mem_cons_self _ _)))
      (fun t ht => hsc t (List.mem_cons_of_mem _ ht)) x hx

theorem phase1_news_inv (scan : List ItemSection) (st : Store)
    (hsc : scanInv scan) : ∀ x ∈ (phase1 st scan).2.2, itemInv x := by
  intro x hx
  obtain ⟨s, hs, hi⟩ := phase1_news_mem scan st x hx
  exact secInvB_some (hsc s hs) hi

theorem deletePhase_ok_sublist : ∀ (ids : List Int) (st st2 : Store)
    (evs : List Event),
    deletePhase st ids = Except.ok (st2, evs) → List.Sublist st2 st := by
  intro ids
  induction ids with
  | nil =>
    intro st st2 evs h
    obtain ⟨h1, _⟩ := ok_pair_inj h
    rw [← h1]
  | cons k rest ih =>
    intro st st2 evs h
    rw [deletePhase] at h
    rcases hf : findItem st k with _ | it
    · rw [hf] at h
      exact Except.noConfusion h
    · rw [hf] at h
      rcases hd : deletePhase (deleteRow st k) rest with e | r
      · rw [hd] at h
        exact Except.noConfusion h
      · rw [hd] at h
        obtain ⟨h1, _⟩ := ok_pair_inj h
        rw [← h1]
        exact (ih (deleteRow st k) r.1 r.2 (by rw [hd])).trans
          (deleteRow_sublist st k)

/-- C9: the data-model invariant `exterior.is_some == kind.is_some` holds
of every item the Field Extractor ever builds, and of every item left in
the store by a reconciliation run whose inputs (initial store and scanned
listings) satisfy it: the parser sets kind and exterior together (both for
full items, neither for vanilla items), and the reconciler only writes
parsed listings, sold/price field updates, and deletions. -/
theorem C9_invariant (n p : String) (sec : ItemSection) (pit : Item)
    (store0 : Store) (scan : List ItemSection) (stF : Store) (evs : List Event)
    (it : Item)
    (hp : parse_item_section n p = ParseResult.ok sec)
    (hpi : sec.item = some pit)
    (hst : ∀ x ∈ store0, itemInv x) (hsc : scanInv scan)
    (hrun : reconcile store0 scan = Except.ok (stF, evs)) (hit : it ∈ stF) :
    itemInv pit ∧ itemInv it := by
  refine ⟨parse_item_section_inv n p sec pit hp hpi, ?_⟩
  rw [reconcile_eq] at hrun
  rcases hd : deletePhase ((phase1 store0 scan).1 ++ (phase1 store0 scan).2.2)
      ((keys ((phase1 store0 scan).1 ++ (phase1 store0 scan).2.2)).filter
        (fun k => !(memInt k (scanIds scan)))) with e | r
  · rw [hd] at hrun
    exact Except.noConfusion hrun
  · rw [hd] at hrun
    obtain ⟨h1, _⟩ := ok_pair_inj hrun
    have hsub := deletePhase_ok_sublist _ _ r.1 r.2 (by rw [hd])
    have hmem : it ∈ (phase1 store0 scan).1 ++ (phase1 store0 scan).2.2 :=
      hsub.subset (h1.symm ▸ hit)
    rcases List.mem_append.mp hmem with hm | hm
    · exact phase1_store_inv scan store0 hst hsc it hm
    · exact phase1_news_inv scan store0 hsc it hm

/-- Witness for C9: a parsed Minimal-Wear listing and the store left by a
price-update run on it. -/
theorem C9_witness :
    itemInv ⟨55, "Glock", some "Fade", some Exterior.MW, 1234, false, false⟩
    ∧ itemInv ⟨55, "Glock", some "Fade", some Exterior.MW, 1234, false, false⟩ :=
  C9_invariant "Glock | Fade (Minimal Wear) #55" "販売価格: 1,234円"
    ⟨some ⟨55, "Glock", some "Fade", some Exterior.MW, 1234, false, false⟩, 55, 1234⟩
    ⟨55, "Glock", some "Fade", some Exterior.MW, 1234, false, false⟩
    [⟨55, "Glock", some "Fade", some Exterior.MW, 999, false, false⟩]
    [⟨some ⟨55, "Glock", some "Fade", some Exterior.MW, 1234, false, false⟩, 55, 1234⟩]
    [⟨55, "Glock", some "Fade", some Exterior.MW, 1234, false, false⟩]
    [Event.priceChanged 999 1234 ⟨55, "Glock", some "Fade", some Exterior.MW, 1234, false, false⟩]
    ⟨55, "Glock", some "Fade", some Exterior.MW, 1234, false, false⟩
    (by decide) (by decide) (by decide) (by decide) (by decide) (by decide)

end Takya
